import Mathlib

set_option maxHeartbeats 1000000

/-!
Verification development for the orchestrator of the unimported scanner
(src/index.ts).  The data model follows the source: a TraversalResult is
a files map (absolute path to FileRecord), a set of external module names
and a set of unresolved specifiers.  JS Maps are embedded as association
lists with unique keys, JS Sets as insertion-ordered duplicate-free lists.
Components that live outside src/ (the traverser, the fingerprint cache
and the resolver) are modelled from the spec where a claim needs them;
each such definition carries a doc comment saying so.
-/

/-- An element of a FileRecord's imports list: the resolved absolute path
together with the raw specifier text (spec section 3). -/
structure ImportEntry where
  path : String
  raw : String
  deriving DecidableEq

/-- A FileRecord (spec section 3): the file's absolute path and its
ordered imports list. -/
structure FileStat where
  path : String
  imports : List ImportEntry
  deriving DecidableEq

/-- The TraversalResult of src/index.ts: files map, modules set, unresolved
set.  The map is an association list, the sets are insertion-ordered
duplicate-free lists. -/
structure TraversalResult where
  files : List (String × FileStat)
  modules : List String
  unresolved : List String
  deriving DecidableEq

/-- JS Set.add: append the element only when it is not present yet. -/
def addSet (s : List String) (x : String) : List String :=
  if x ∈ s then s else s ++ [x]

/-- JS Map.get on an association list: the value at the first matching key. -/
def alookup {α : Type} : List (String × α) → String → Option α
  | [], _ => none
  | kv :: rest, k => if kv.1 = k then some kv.2 else alookup rest k

/-- Replace the value stored at a key, keeping its position (JS Map.set on an
existing key). -/
def mupdate {α : Type} (l : List (String × α)) (k : String) (v : α) :
    List (String × α) :=
  l.map fun kv => if kv.1 = k then (k, v) else kv

/-- The resolved paths of an imports list. -/
def pathsOf (l : List ImportEntry) : List String :=
  l.map ImportEntry.path

/-- Lines 204-211 of src/index.ts: walk the incoming imports and push each
one whose path is not in the added set, recording the path. -/
def pushNew (prev : List ImportEntry) (added : List String) :
    List ImportEntry → List ImportEntry
  | [] => prev
  | f :: rest =>
    if f.path ∈ added then pushNew prev added rest
    else pushNew (prev ++ [f]) (f.path :: added) rest

/-- Keep the first occurrence of each resolved path not yet seen (the
"union deduplicated by resolved path in first-seen order" of the spec). -/
def dedupByPath (seen : List String) : List ImportEntry → List ImportEntry
  | [] => []
  | f :: rest =>
    if f.path ∈ seen then dedupByPath seen rest
    else f :: dedupByPath (f.path :: seen) rest

/-- Insertion step for the key sort of line 186. -/
def insertByKey (kv : String × FileStat) :
    List (String × FileStat) → List (String × FileStat)
  | [] => [kv]
  | y :: ys => if kv.1 < y.1 then kv :: y :: ys else y :: insertByKey kv ys

/-- Line 186 of src/index.ts: subResult.files = new Map([...files].sort());
the entries are reordered by key.  Only the fact that this is a permutation
is used by the theorems. -/
def sortFiles (l : List (String × FileStat)) : List (String × FileStat) :=
  l.foldr insertByKey []

/-- Lines 196-212 of src/index.ts: merge one (key, record) pair of a
sub-result into the accumulated files map.  A new key is inserted as is; an
existing key keeps its record and receives the incoming imports that bring a
resolved path not present yet. -/
def mergeFilePair (acc : List (String × FileStat)) (kv : String × FileStat) :
    List (String × FileStat) :=
  match alookup acc kv.1 with
  | none => acc ++ [kv]
  | some prev =>
    mupdate acc kv.1
      { prev with imports := pushNew prev.imports (pathsOf prev.imports) kv.2.imports }

/-- Lines 186-212 of src/index.ts: merge a per-entry sub-result into the
accumulated result.  Modules and unresolved are unioned with Set.add, the
files map is merged pairwise over the key-sorted sub-result. -/
def mergeInto (acc sub : TraversalResult) : TraversalResult :=
  { files := (sortFiles sub.files).foldl mergeFilePair acc.files
    modules := sub.modules.foldl addSet acc.modules
    unresolved := sub.unresolved.foldl addSet acc.unresolved }

/-- Modelled from the spec: getResultObject of traverse.ts (not under src/)
returns an empty TraversalResult (empty map and empty sets). -/
def getResultObject : TraversalResult :=
  { files := [], modules := [], unresolved := [] }

/-- The cross-entry merge of the orchestrator as a pure fold: each per-entry
traversal result is merged into the accumulator in entry order. -/
def mergeAll (rs : List TraversalResult) : TraversalResult :=
  rs.foldl mergeInto getResultObject

/-- The error taxonomy reaching main (spec section 7): ParseError carries the
offending path; InvalidCacheError is raised by the cache layer.  Modelled
from the spec: the error classes live in cache.ts and traverse.ts, which are
not under src/; both carry the failing path that main prints. -/
inductive TraverseError where
  | parseError (path : String)
  | invalidCacheError (path : String)
  deriving DecidableEq

/-- The failing path carried by an error. -/
def TraverseError.path : TraverseError → String
  | .parseError p => p
  | .invalidCacheError p => p

/-- A short rendering of the error object (console.error(error)). -/
def TraverseError.render : TraverseError → String
  | .parseError p => "ParseError: " ++ p
  | .invalidCacheError p => "InvalidCacheError: " ++ p

/-- Outcome of the traverse / catch / then chain of lines 175-184 for one
entry: the value produced (or the propagated error), how many times traverse
was invoked, and whether purgeCache ran. -/
structure ChainOut where
  outcome : Except TraverseError TraversalResult
  calls : Nat
  purged : Bool

/-- Lines 175-184 of src/index.ts.  The promise chain
traverse(...).catch(err => if InvalidCacheError then purgeCache() else
throw err).then(() => traverse(...)) is embedded over an oracle tr giving
the outcome of the n-th traverse invocation for this entry:
a fulfilled first call falls through the catch and the then-callback runs
traverse again, whose outcome is the one kept; a first call rejected with
InvalidCacheError is caught, the cache is purged and the then-callback
retries once; any other rejection is rethrown by the catch, the
then-callback is skipped and the rejection propagates. -/
def runEntryChain (tr : Nat → Except TraverseError TraversalResult) : ChainOut :=
  match tr 0 with
  | .ok _ => { outcome := tr 1, calls := 2, purged := false }
  | .error (.invalidCacheError _) => { outcome := tr 1, calls := 2, purged := true }
  | .error (.parseError p) => { outcome := .error (.parseError p), calls := 1, purged := false }

/-- The environment main runs in: the results of its external collaborators
(read-pkg-up, configuration loading, the traverser, processResults).  The
traverser, which is not under src/, is abstracted as an oracle giving the
outcome of invocation n of traverse for entry index i. -/
structure Env where
  projectPkgPath : Option String
  unimportedPkgPath : Option String
  entries : List String
  traverseOutcome : Nat → Nat → Except TraverseError TraversalResult
  resultClean : Bool

/-- Outcome of the entry loop: final merged result or first error, total
traverse invocations, number of purgeCache calls. -/
structure LoopOut where
  outcome : Except TraverseError TraversalResult
  calls : Nat
  purges : Nat

/-- Lines 157-213 of src/index.ts: run the chain for each entry index in
order, merging each successful sub-result into the accumulator; the first
propagated error aborts the loop (the exception leaves the for-loop). -/
def entryLoopGo (env : Env) : List Nat → TraversalResult → Nat → Nat → LoopOut
  | [], acc, calls, purges => { outcome := .ok acc, calls := calls, purges := purges }
  | i :: rest, acc, calls, purges =>
    match (runEntryChain (env.traverseOutcome i)).outcome with
    | .ok sub =>
      entryLoopGo env rest (mergeInto acc sub)
        (calls + (runEntryChain (env.traverseOutcome i)).calls)
        (purges + (if (runEntryChain (env.traverseOutcome i)).purged then 1 else 0))
    | .error e =>
      { outcome := .error e
        calls := calls + (runEntryChain (env.traverseOutcome i)).calls
        purges := purges + (if (runEntryChain (env.traverseOutcome i)).purged then 1 else 0) }

/-- The entry loop over all configured entry points. -/
def entryLoop (env : Env) : LoopOut :=
  entryLoopGo env (List.range env.entries.length) getResultObject 0 0

/-- The CLI arguments of main (src/index.ts). -/
structure CliArguments where
  flow : Bool
  update : Bool
  init : Bool
  ignoreUntracked : Bool
  clearCache : Bool
  cache : Bool

/-- Observable trace of one main run: the exit code (none when main returns
without calling process.exit), the stderr lines, purge and traverse counts,
and which of the result consumers ran. -/
structure MainTrace where
  exitCode : Option Nat
  stderr : List String
  purges : Nat
  traverseCalls : Nat
  storedCache : Bool
  updatedAllowLists : Bool
  printedResults : Bool
  wroteInitConfig : Bool
  mergedResult : Option TraversalResult

/-- Lines 86-94 of src/index.ts: the guard fails when either package.json
lookup failed or the project found is unimported itself. -/
def pkgGuardFails (env : Env) : Bool :=
  match env.projectPkgPath, env.unimportedPkgPath with
  | some pp, some up => up == pp
  | _, _ => true

/-- The stderr message of lines 87-91. -/
def couldNotResolveMsg : String :=
  "could not resolve package.json, are you in a node project?"

/-- The stderr message of line 261. -/
def failedParsingMsg (e : TraverseError) : String :=
  "\nFailed parsing " ++ e.path

/-- The main orchestrator of src/index.ts, embedded over Env.  Spinner and
logging are elided; git untracked filtering, file enumeration and
processResults are external collaborators summarised by Env.resultClean.
Control flow follows the source: package.json guard (exit 1, no traversal),
clearCache early return, init (write config, exit 0), the entry loop with
its catch handler (print the failing path, exit 1), storeCache when caching,
then either updateAllowLists with exit 0 or printResults with exit 1 when
the result is not clean. -/
def mainModel (env : Env) (args : CliArguments) : MainTrace :=
  if pkgGuardFails env then
    { exitCode := some 1, stderr := [couldNotResolveMsg], purges := 0
      traverseCalls := 0, storedCache := false, updatedAllowLists := false
      printedResults := false, wroteInitConfig := false, mergedResult := none }
  else if args.clearCache then
    { exitCode := none, stderr := [], purges := 1, traverseCalls := 0
      storedCache := false, updatedAllowLists := false, printedResults := false
      wroteInitConfig := false, mergedResult := none }
  else if args.init then
    { exitCode := some 0, stderr := [], purges := 0, traverseCalls := 0
      storedCache := false, updatedAllowLists := false, printedResults := false
      wroteInitConfig := true, mergedResult := none }
  else
    match (entryLoop env).outcome with
    | .error e =>
      { exitCode := some 1, stderr := [failedParsingMsg e, e.render]
        purges := (entryLoop env).purges, traverseCalls := (entryLoop env).calls
        storedCache := false, updatedAllowLists := false, printedResults := false
        wroteInitConfig := false, mergedResult := none }
    | .ok tr =>
      if args.update then
        { exitCode := some 0, stderr := [], purges := (entryLoop env).purges
          traverseCalls := (entryLoop env).calls, storedCache := args.cache
          updatedAllowLists := true, printedResults := false
          wroteInitConfig := false, mergedResult := some tr }
      else
        { exitCode := if env.resultClean then none else some 1, stderr := []
          purges := (entryLoop env).purges, traverseCalls := (entryLoop env).calls
          storedCache := args.cache, updatedAllowLists := false
          printedResults := true, wroteInitConfig := false
          mergedResult := some tr }

/-- Modelled from the spec: the per-entry ResolutionConfig fields relevant to
alias resolution (spec section 3); the resolver lives in traverse.ts, which
is not under src/. -/
structure ResolutionConfig where
  extensions : List String
  aliases : List (String × List String)
  deriving DecidableEq

/-- Modelled from the spec: an entry point's optional override subset of the
global configuration fields (spec sections 3 and 6). -/
structure EntryOverride where
  extensions : Option (List String)
  aliases : Option (List (String × List String))
  deriving DecidableEq

/-- Modelled from the spec: the per-entry configuration is the global config
with override fields replacing, not merging, the same-named global fields
(spec section 3). -/
def mergeEntryConfig (g : ResolutionConfig) (o : EntryOverride) : ResolutionConfig :=
  { extensions := o.extensions.getD g.extensions
    aliases := o.aliases.getD g.aliases }

/-- Modelled from the spec: alias prefix matching of the resolver (spec
section 4.2 step 1): an alias matches on an exact segment boundary, so
a specifier equal to the alias or extending it past a slash matches, and the
matched prefix is dropped from the specifier. -/
def matchAlias (specifier p : String) : Option String :=
  if specifier = p then some ""
  else if (p ++ "/").isPrefixOf specifier then some (specifier.drop p.length)
  else none

/-- Modelled from the spec: file resolution by extension list (spec section
4.2 step 5): try each configured extension in order on the base path. -/
def tryExtensions (fsx : List String) (base : String) : List String → Option String
  | [] => none
  | e :: rest =>
    if (base ++ e) ∈ fsx then some (base ++ e) else tryExtensions fsx base rest

/-- Modelled from the spec: candidate file resolution (spec section 4.2 step
5): the path verbatim, then each extension in order, then an index file with
each extension in order; the first existing regular file wins.  The
filesystem is the list of existing regular files. -/
def resolveFile (fsx : List String) (exts : List String) (base : String) :
    Option String :=
  if base ∈ fsx then some base
  else
    match tryExtensions fsx base exts with
    | some p => some p
    | none => tryExtensions fsx (base ++ "/index") exts

/-- Modelled from the spec: the alias step of the resolver (spec section 4.2
step 1): aliases are tried in configuration order, each candidate
replacement path is substituted for the matched prefix in array order, and
the first candidate that resolves to an existing file or index wins. -/
def resolveAliased (fsx : List String) (cfg : ResolutionConfig)
    (specifier : String) : Option String :=
  cfg.aliases.findSome? fun pt =>
    match matchAlias specifier pt.1 with
    | none => none
    | some rest => pt.2.findSome? fun t => resolveFile fsx cfg.extensions (t ++ rest)

/-- Modelled from the spec: a fingerprint cache entry (spec section 3):
content-derived fingerprint plus the parse payload, the file's raw
specifiers. -/
structure CEntry where
  fingerprint : Nat
  payload : List String
  deriving DecidableEq

/-- Modelled from the spec: the cache store, keyed by absolute path. -/
abbrev CacheMap := List (String × CEntry)

/-- The content of a file in the modelled filesystem (path to source text). -/
def contentOf (fs : List (String × String)) (p : String) : Option String :=
  alookup fs p

/-- Modelled from the spec: cache lookup (spec section 4.3): a hit only when
an entry exists and its recorded fingerprint matches the file's current
fingerprint; anything else is a miss. -/
def cacheLookup (fpfn : String → Nat) (fs : List (String × String))
    (cache : CacheMap) (p : String) : Option (List String) :=
  match alookup cache p, contentOf fs p with
  | some e, some c => if e.fingerprint = fpfn c then some e.payload else none
  | _, _ => none

/-- Modelled from the spec: cache store (spec section 4.3): record the
current fingerprint and payload, replacing any prior entry. -/
def cacheStore (cache : CacheMap) (p : String) (e : CEntry) : CacheMap :=
  match alookup cache p with
  | some _ => mupdate cache p e
  | none => cache ++ [(p, e)]

/-- Modelled from the spec: obtain a file's raw specifiers through the cache
(spec sections 4.3 and 4.4): read-check the cache before every parse
attempt; on a miss parse and store.  The parser is the abstract function
parse from source text to specifier list; a path that does not exist yields
no specifiers and leaves the cache untouched. -/
def getSpecifiers (parse : String → List String) (fpfn : String → Nat)
    (fs : List (String × String)) (cache : CacheMap) (p : String) :
    List String × CacheMap :=
  match contentOf fs p with
  | none => ([], cache)
  | some c =>
    match cacheLookup fpfn fs cache p with
    | some payload => (payload, cache)
    | none => (parse c, cacheStore cache p { fingerprint := fpfn c, payload := parse c })

/-- The resolver verdict (spec section 3). -/
inductive ResolutionResult where
  | resolved (p : String)
  | resolvedExternal (name : String)
  | unresolved (raw : String)
  deriving DecidableEq

/-- Modelled from the spec: processing of one file's specifier list (spec
section 4.4): resolve each specifier; a Resolved path is appended to the
file's imports (deduplicated by resolved path) and enqueued; external and
unresolved verdicts are recorded into the shared sets.  Returns the updated
result carrying the completed FileRecord and the children to enqueue. -/
def processFile (resolveFn : String → String → ResolutionResult) (p : String)
    (specs : List String) (acc : TraversalResult) :
    TraversalResult × List String :=
  let step :=
    fun (st : List ImportEntry × List String × TraversalResult) (s : String) =>
      match resolveFn p s with
      | .resolved q =>
        if q ∈ pathsOf st.1 then st
        else (st.1 ++ [{ path := q, raw := s }], st.2.1 ++ [q], st.2.2)
      | .resolvedExternal m =>
        (st.1, st.2.1, { st.2.2 with modules := addSet st.2.2.modules m })
      | .unresolved raw =>
        (st.1, st.2.1, { st.2.2 with unresolved := addSet st.2.2.unresolved raw })
  let out := specs.foldl step ([], [], acc)
  ({ out.2.2 with files := out.2.2.files ++ [(p, { path := p, imports := out.1 })] },
    out.2.1)

/-- Modelled from the spec: the fuelled graph walk of the traverser (spec
section 4.4): a worklist of paths, a visited set making each path processed
at most once (cycle safety), the accumulated result and the threaded cache.
Fuel only forces termination; both runs compared by the idempotence theorem
use the same fuel. -/
def traverseGo (parse : String → List String) (fpfn : String → Nat)
    (resolveFn : String → String → ResolutionResult)
    (fs : List (String × String)) :
    Nat → List String → List String → TraversalResult → CacheMap →
    TraversalResult × CacheMap
  | 0, _, _, acc, cache => (acc, cache)
  | _ + 1, [], _, acc, cache => (acc, cache)
  | n + 1, p :: rest, visited, acc, cache =>
    if p ∈ visited then traverseGo parse fpfn resolveFn fs n rest visited acc cache
    else
      traverseGo parse fpfn resolveFn fs n
        ((processFile resolveFn p (getSpecifiers parse fpfn fs cache p).1 acc).2 ++ rest)
        (p :: visited)
        (processFile resolveFn p (getSpecifiers parse fpfn fs cache p).1 acc).1
        (getSpecifiers parse fpfn fs cache p).2

/-- Modelled from the spec: one traversal call from an entry path (spec
section 4.4), returning the per-entry TraversalResult and the cache left
behind for the next run. -/
def traverse (parse : String → List String) (fpfn : String → Nat)
    (resolveFn : String → String → ResolutionResult)
    (fs : List (String × String)) (entry : String) (fuel : Nat)
    (cache : CacheMap) : TraversalResult × CacheMap :=
  traverseGo parse fpfn resolveFn fs fuel [entry] [] getResultObject cache

/-- A cache is coherent with the filesystem when every stored entry whose
fingerprint still matches holds exactly the parse of the current content
(the invariant of spec section 3: the cache never returns a payload whose
recorded fingerprint differs from the file's current fingerprint). -/
def Coherent (parse : String → List String) (fpfn : String → Nat)
    (fs : List (String × String)) (cache : CacheMap) : Prop :=
  ∀ kv ∈ cache, ∀ c, contentOf fs kv.1 = some c →
    kv.2.fingerprint = fpfn c → kv.2.payload = parse c

/-- The specifiers of a file as a pure function of the filesystem alone:
what a parse of the current content yields. -/
def pureSpecs (parse : String → List String) (fs : List (String × String))
    (p : String) : List String :=
  match contentOf fs p with
  | some c => parse c
  | none => []

/-- The imports list a per-entry result records for a path (empty when the
entry never visited the path). -/
def importsAt (r : TraversalResult) (p : String) : List ImportEntry :=
  match alookup r.files p with
  | some st => st.imports
  | none => []

/-- The concatenation, in entry order, of the imports every entry records
for a path. -/
def flatImports (p : String) : List TraversalResult → List ImportEntry
  | [] => []
  | r :: rest => importsAt r p ++ flatImports p rest

/-! Concrete sample data used by the witness theorems. -/

/-- A sample per-entry result (first entry). -/
def wtr1 : TraversalResult :=
  { files := [("/p/a.js",
      { path := "/p/a.js"
        imports := [{ path := "/p/b.js", raw := "./b" },
          { path := "/p/c.js", raw := "./c" }] })]
    modules := ["react"], unresolved := ["./x"] }

/-- A sample per-entry result (second entry), sharing the file and one
resolved path with the first. -/
def wtr2 : TraversalResult :=
  { files := [("/p/a.js",
      { path := "/p/a.js"
        imports := [{ path := "/p/b.js", raw := "./b" },
          { path := "/p/d.js", raw := "./d" }] })]
    modules := ["react", "lodash"], unresolved := ["./x", "./y"] }

/-- The record the merge is expected to hold for the shared path. -/
def wstat : FileStat :=
  { path := "/p/a.js"
    imports := [{ path := "/p/b.js", raw := "./b" },
      { path := "/p/c.js", raw := "./c" },
      { path := "/p/d.js", raw := "./d" }] }

/-- Oracle: first traverse call rejects with InvalidCacheError, the retry
succeeds. -/
def oracleRetry : Nat → Except TraverseError TraversalResult :=
  fun n => if n = 0 then .error (.invalidCacheError "/p/a.js") else .ok getResultObject

/-- Oracle: every traverse call rejects with a ParseError. -/
def oracleParse : Nat → Except TraverseError TraversalResult :=
  fun _ => .error (.parseError "/p/index.js")

/-- Oracle: both traverse calls succeed, with different results. -/
def oracleTwoOk : Nat → Except TraverseError TraversalResult :=
  fun n => if n = 0 then .ok wtr1 else .ok wtr2

/-- Environment whose single entry succeeds (dirty scan result). -/
def envOk : Env :=
  { projectPkgPath := some "/p/package.json"
    unimportedPkgPath := some "/n/unimported/package.json"
    entries := ["index.js"]
    traverseOutcome := fun _ => oracleTwoOk
    resultClean := false }

/-- Environment whose single entry fails to parse. -/
def envParse : Env :=
  { projectPkgPath := some "/p/package.json"
    unimportedPkgPath := some "/n/unimported/package.json"
    entries := ["index.js"]
    traverseOutcome := fun _ => oracleParse
    resultClean := true }

/-- Environment where no project package.json was found. -/
def envNoPkg : Env :=
  { projectPkgPath := none
    unimportedPkgPath := some "/n/unimported/package.json"
    entries := ["index.js"]
    traverseOutcome := fun _ _ => .ok getResultObject
    resultClean := true }

/-- Default scan arguments. -/
def argsScan : CliArguments :=
  { flow := false, update := false, init := false, ignoreUntracked := false
    clearCache := false, cache := true }

/-- Scan arguments with the update flag set. -/
def argsUpdate : CliArguments :=
  { argsScan with update := true }

/-- Sample filesystem for the alias-override witness. -/
def wfsx : List String :=
  ["src/api/create-api-client.js", "src/api/create-api-server.js"]

/-- Sample global resolution config. -/
def wglobal : ResolutionConfig :=
  { extensions := [".js"]
    aliases := [("create-api", ["src/api/create-api-server.js"])] }

/-- Client entry override: the same alias name points at the client file. -/
def wo1 : EntryOverride :=
  { extensions := none
    aliases := some [("create-api", ["src/api/create-api-client.js"])] }

/-- Server entry override: the same alias name points at the server file. -/
def wo2 : EntryOverride :=
  { extensions := none
    aliases := some [("create-api", ["src/api/create-api-server.js"])] }

/-! Helper lemmas about the JS Set and Map embeddings. -/

theorem mem_addSet {s : List String} {x y : String} :
    y ∈ addSet s x ↔ y ∈ s ∨ y = x := by
  by_cases h : x ∈ s
  · simp only [addSet, if_pos h]
    exact ⟨Or.inl, fun hy => hy.elim id fun e => e ▸ h⟩
  · simp [addSet, if_neg h]

theorem nodup_addSet {s : List String} {x : String} (h : s.Nodup) :
    (addSet s x).Nodup := by
  by_cases hx : x ∈ s
  · simpa [addSet, if_pos hx] using h
  · simp only [addSet, if_neg hx]
    refine h.append (List.nodup_singleton x) ?_
    intro a ha hax
    rw [List.mem_singleton] at hax
    exact hx (hax ▸ ha)

theorem mem_foldl_addSet (l : List String) :
    ∀ (acc : List String) (x : String),
      x ∈ l.foldl addSet acc ↔ x ∈ acc ∨ x ∈ l := by
  induction l with
  | nil => intro acc x; simp
  | cons a l ih =>
    intro acc x
    rw [List.foldl_cons, ih]
    simp [mem_addSet, List.mem_cons]
    tauto

theorem nodup_foldl_addSet (l : List String) :
    ∀ acc : List String, acc.Nodup → (l.foldl addSet acc).Nodup := by
  induction l with
  | nil => intro acc h; simpa using h
  | cons a l ih => intro acc h; exact ih _ (nodup_addSet h)

theorem alookup_append_of_none {α : Type} {l : List (String × α)}
    (m : List (String × α)) {k : String} (h : alookup l k = none) :
    alookup (l ++ m) k = alookup m k := by
  induction l with
  | nil => simp
  | cons kv rest ih =>
    by_cases hk : kv.1 = k
    · simp [alookup, hk] at h
    · simp only [alookup, if_neg hk] at h ⊢
      exact ih h

theorem alookup_append_of_some {α : Type} {l : List (String × α)}
    (m : List (String × α)) {k : String} {v : α} (h : alookup l k = some v) :
    alookup (l ++ m) k = some v := by
  induction l with
  | nil => simp [alookup] at h
  | cons kv rest ih =>
    by_cases hk : kv.1 = k
    · simp only [alookup, if_pos hk] at h ⊢
      exact h
    · simp only [alookup, if_neg hk] at h ⊢
      exact ih h

theorem alookup_singleton_ne {α : Type} {kv : String × α} {k : String}
    (h : kv.1 ≠ k) : alookup [kv] k = none := by
  simp [alookup, h]

theorem alookup_mupdate_self {α : Type} {l : List (String × α)} {k : String}
    {prev : α} (v : α) (h : alookup l k = some prev) :
    alookup (mupdate l k v) k = some v := by
  induction l with
  | nil => simp [alookup] at h
  | cons kv rest ih =>
    by_cases hk : kv.1 = k
    · simp [mupdate, alookup, hk]
    · simp only [alookup, if_neg hk] at h
      simp only [mupdate, List.map_cons, if_neg hk]
      simp only [alookup, if_neg hk]
      exact ih h

theorem alookup_mupdate_ne {α : Type} {l : List (String × α)} {k q : String}
    (v : α) (h : q ≠ k) : alookup (mupdate l k v) q = alookup l q := by
  induction l with
  | nil => rfl
  | cons kv rest ih =>
    by_cases hk : kv.1 = k
    · simp only [mupdate, List.map_cons, if_pos hk]
      have hkq : k ≠ q := fun e => h e.symm
      simp only [alookup, if_neg hkq, if_neg (hk ▸ hkq : kv.1 ≠ q)]
      exact ih
    · simp only [mupdate, List.map_cons, if_neg hk]
      simp only [alookup]
      split
      · rfl
      · exact ih

theorem alookup_mem {α : Type} {l : List (String × α)} {k : String} {v : α}
    (h : alookup l k = some v) : (k, v) ∈ l := by
  induction l with
  | nil => simp [alookup] at h
  | cons kv rest ih =>
    by_cases hk : kv.1 = k
    · simp only [alookup, if_pos hk] at h
      obtain ⟨k0, v0⟩ := kv
      obtain rfl : k0 = k := hk
      obtain rfl : v0 = v := Option.some.inj h
      exact List.mem_cons_self _ _
    · simp only [alookup, if_neg hk] at h
      exact List.mem_cons_of_mem _ (ih h)

theorem alookup_eq_some_of_mem {α : Type} {l : List (String × α)} {k : String}
    {v : α} (hn : (l.map Prod.fst).Nodup) (hm : (k, v) ∈ l) :
    alookup l k = some v := by
  induction l with
  | nil => simp at hm
  | cons kv rest ih =>
    rw [List.map_cons, List.nodup_cons] at hn
    rcases List.mem_cons.mp hm with rfl | hm'
    · simp [alookup]
    · have hk : kv.1 ≠ k := by
        intro e
        exact hn.1 (e ▸ List.mem_map_of_mem Prod.fst hm')
      simp only [alookup, if_neg hk]
      exact ih hn.2 hm'

theorem alookup_eq_none_iff {α : Type} {l : List (String × α)} {k : String} :
    alookup l k = none ↔ k ∉ l.map Prod.fst := by
  induction l with
  | nil => simp [alookup]
  | cons kv rest ih =>
    by_cases hk : kv.1 = k
    · simp [alookup, hk]
    · simp [alookup, if_neg hk, ih, Ne.symm hk]

theorem alookup_perm {α : Type} {l l' : List (String × α)} (hp : l.Perm l')
    (hn : (l.map Prod.fst).Nodup) (k : String) : alookup l k = alookup l' k := by
  have hn' : (l'.map Prod.fst).Nodup := ((hp.map Prod.fst).nodup_iff).mp hn
  cases h : alookup l k with
  | some v =>
    exact (alookup_eq_some_of_mem hn' (hp.mem_iff.mp (alookup_mem h))).symm
  | none =>
    rw [alookup_eq_none_iff] at h
    rw [eq_comm, alookup_eq_none_iff]
    exact fun hm => h ((hp.map Prod.fst).mem_iff.mpr hm)

theorem insertByKey_perm (kv : String × FileStat) (l : List (String × FileStat)) :
    (insertByKey kv l).Perm (kv :: l) := by
  induction l with
  | nil => simp [insertByKey]
  | cons y ys ih =>
    unfold insertByKey
    split
    · exact List.Perm.refl _
    · exact (ih.cons y).trans (List.Perm.swap kv y ys)

theorem sortFiles_perm (l : List (String × FileStat)) : (sortFiles l).Perm l := by
  induction l with
  | nil => simp [sortFiles]
  | cons kv rest ih =>
    have h : sortFiles (kv :: rest) = insertByKey kv (sortFiles rest) := rfl
    rw [h]
    exact (insertByKey_perm kv (sortFiles rest)).trans (ih.cons kv)

/-! Lemmas about deduplication by resolved path. -/

theorem pathsOf_append (a b : List ImportEntry) :
    pathsOf (a ++ b) = pathsOf a ++ pathsOf b :=
  List.map_append _ a b

theorem dedupByPath_congr {s1 s2 : List String} (h : ∀ x, x ∈ s1 ↔ x ∈ s2) :
    ∀ l, dedupByPath s1 l = dedupByPath s2 l := by
  intro l
  induction l generalizing s1 s2 with
  | nil => rfl
  | cons f rest ih =>
    by_cases hf : f.path ∈ s1
    · simp only [dedupByPath, if_pos hf, if_pos ((h f.path).mp hf)]
      exact ih h
    · simp only [dedupByPath, if_neg hf, if_neg (fun hh => hf ((h f.path).mpr hh))]
      congr 1
      refine ih (fun x => ?_)
      simp only [List.mem_cons]
      exact ⟨fun hx => hx.elim Or.inl (fun hx' => Or.inr ((h x).mp hx')),
        fun hx => hx.elim Or.inl (fun hx' => Or.inr ((h x).mpr hx'))⟩

theorem dedupByPath_append (a b : List ImportEntry) :
    ∀ s, dedupByPath s (a ++ b) =
      dedupByPath s a ++ dedupByPath (pathsOf (dedupByPath s a) ++ s) b := by
  induction a with
  | nil =>
    intro s
    simp [dedupByPath, pathsOf]
  | cons f rest ih =>
    intro s
    by_cases hf : f.path ∈ s
    · simp only [List.cons_append, dedupByPath, if_pos hf]
      exact ih s
    · simp only [List.cons_append, dedupByPath, if_neg hf]
      simp only [List.append_eq]
      rw [ih (f.path :: s)]
      congr 1
      congr 1
      refine dedupByPath_congr (fun x => ?_) b
      simp only [pathsOf, List.map_cons, List.mem_append, List.mem_cons]
      tauto

theorem dedupByPath_nodup_and_disjoint (l : List ImportEntry) :
    ∀ s, (pathsOf (dedupByPath s l)).Nodup ∧
      ∀ x ∈ pathsOf (dedupByPath s l), x ∉ s := by
  induction l with
  | nil => intro s; simp [dedupByPath, pathsOf]
  | cons f rest ih =>
    intro s
    by_cases hf : f.path ∈ s
    · simpa only [dedupByPath, if_pos hf] using ih s
    · simp only [dedupByPath, if_neg hf, pathsOf, List.map_cons]
      obtain ⟨h1, h2⟩ := ih (f.path :: s)
      refine ⟨List.nodup_cons.mpr ⟨fun hm => ?_, h1⟩, ?_⟩
      · exact (h2 _ hm) (List.mem_cons_self _ _)
      · intro x hx
        rcases List.mem_cons.mp hx with rfl | hx'
        · exact hf
        · exact fun hs => h2 x hx' (List.mem_cons_of_mem _ hs)

theorem dedupByPath_eq_self (l : List ImportEntry) :
    ∀ s, (pathsOf l).Nodup → (∀ x ∈ pathsOf l, x ∉ s) → dedupByPath s l = l := by
  induction l with
  | nil => intro s _ _; rfl
  | cons f rest ih =>
    intro s hn hs
    have hpaths : pathsOf (f :: rest) = f.path :: pathsOf rest := rfl
    rw [hpaths] at hn hs
    obtain ⟨hfr, hnr⟩ := List.nodup_cons.mp hn
    have hf : f.path ∉ s := hs f.path (List.mem_cons_self _ _)
    simp only [dedupByPath, if_neg hf]
    congr 1
    refine ih (f.path :: s) hnr ?_
    intro x hx
    rw [List.mem_cons]
    rintro (rfl | hxs)
    · exact hfr hx
    · exact hs x (List.mem_cons_of_mem _ hx) hxs

theorem pushNew_eq (new : List ImportEntry) :
    ∀ prev added, pushNew prev added new = prev ++ dedupByPath added new := by
  induction new with
  | nil => intro prev added; simp [pushNew, dedupByPath]
  | cons f rest ih =>
    intro prev added
    by_cases hf : f.path ∈ added
    · simp only [pushNew, dedupByPath, if_pos hf]
      exact ih prev added
    · simp only [pushNew, dedupByPath, if_neg hf]
      rw [ih (prev ++ [f]) (f.path :: added), List.append_assoc]
      rfl

theorem merged_imports_nodup {prev : List ImportEntry}
    (hp : (pathsOf prev).Nodup) (new : List ImportEntry) :
    (pathsOf (pushNew prev (pathsOf prev) new)).Nodup := by
  rw [pushNew_eq, pathsOf_append]
  have h := dedupByPath_nodup_and_disjoint new (pathsOf prev)
  exact hp.append h.1 (fun x hx1 hx2 => h.2 x hx2 hx1)

/-! Lemmas about the per-pair file merge of lines 196-212. -/

theorem alookup_mergeFilePair_ne (acc : List (String × FileStat))
    (kv : String × FileStat) {q : String} (h : kv.1 ≠ q) :
    alookup (mergeFilePair acc kv) q = alookup acc q := by
  unfold mergeFilePair
  cases hl : alookup acc kv.1 with
  | none =>
    cases hq : alookup acc q with
    | none =>
      rw [alookup_append_of_none _ hq, alookup_singleton_ne h]
    | some v => rw [alookup_append_of_some _ hq]
  | some prev => exact alookup_mupdate_ne _ (fun e => h e.symm)

theorem alookup_mergeFilePair_self_none (acc : List (String × FileStat))
    (kv : String × FileStat) (h : alookup acc kv.1 = none) :
    alookup (mergeFilePair acc kv) kv.1 = some kv.2 := by
  unfold mergeFilePair
  rw [h, alookup_append_of_none _ h]
  simp [alookup]

theorem alookup_mergeFilePair_self_some (acc : List (String × FileStat))
    (kv : String × FileStat) {prev : FileStat} (h : alookup acc kv.1 = some prev) :
    alookup (mergeFilePair acc kv) kv.1 =
      some { prev with
        imports := pushNew prev.imports (pathsOf prev.imports) kv.2.imports } := by
  unfold mergeFilePair
  rw [h]
  exact alookup_mupdate_self _ h

theorem alookup_foldl_mergeFilePair_not_mem (es : List (String × FileStat)) :
    ∀ acc q, (∀ kv ∈ es, kv.1 ≠ q) →
      alookup (es.foldl mergeFilePair acc) q = alookup acc q := by
  induction es with
  | nil => intro acc q _; rfl
  | cons kv rest ih =>
    intro acc q h
    rw [List.foldl_cons, ih _ _ (fun kv' hm => h kv' (List.mem_cons_of_mem _ hm)),
      alookup_mergeFilePair_ne _ _ (h kv (List.mem_cons_self _ _))]

theorem alookup_foldl_mergeFilePair (es : List (String × FileStat)) :
    ∀ acc p, ((es.map Prod.fst).Nodup) →
      alookup (es.foldl mergeFilePair acc) p =
        match alookup es p with
        | none => alookup acc p
        | some st =>
          match alookup acc p with
          | none => some st
          | some prev =>
            some { prev with
              imports := pushNew prev.imports (pathsOf prev.imports) st.imports } := by
  induction es with
  | nil => intro acc p _; rfl
  | cons kv rest ih =>
    intro acc p hn
    rw [List.map_cons, List.nodup_cons] at hn
    obtain ⟨hk, hn'⟩ := hn
    rw [List.foldl_cons]
    by_cases hkp : kv.1 = p
    · subst hkp
      have hrest : ∀ kv' ∈ rest, kv'.1 ≠ kv.1 := by
        intro kv' hm heq
        exact hk (heq ▸ List.mem_map_of_mem Prod.fst hm)
      rw [alookup_foldl_mergeFilePair_not_mem rest _ _ hrest]
      have hhead : alookup (kv :: rest) kv.1 = some kv.2 := by simp [alookup]
      rw [hhead]
      cases hacc : alookup acc kv.1 with
      | none => simp [alookup_mergeFilePair_self_none acc kv hacc, hacc]
      | some prev => simp [alookup_mergeFilePair_self_some acc kv hacc, hacc]
    · have hhead : alookup (kv :: rest) p = alookup rest p := by
        simp [alookup, hkp]
      rw [hhead, ih _ _ hn', alookup_mergeFilePair_ne _ _ hkp]

/-- The files part of one mergeInto step, characterised per key. -/
theorem alookup_mergeInto_files (acc sub : TraversalResult) (p : String)
    (hn : (sub.files.map Prod.fst).Nodup) :
    alookup (mergeInto acc sub).files p =
      match alookup sub.files p with
      | none => alookup acc.files p
      | some st =>
        match alookup acc.files p with
        | none => some st
        | some prev =>
          some { prev with
            imports := pushNew prev.imports (pathsOf prev.imports) st.imports } := by
  have hperm := sortFiles_perm sub.files
  have hn' : ((sortFiles sub.files).map Prod.fst).Nodup :=
    ((hperm.map Prod.fst).nodup_iff).mpr hn
  have h := alookup_foldl_mergeFilePair (sortFiles sub.files) acc.files p hn'
  have hfiles : (mergeInto acc sub).files =
      (sortFiles sub.files).foldl mergeFilePair acc.files := rfl
  rw [hfiles, h, alookup_perm hperm hn' p]

theorem mem_mergeInto_modules (acc sub : TraversalResult) (m : String) :
    m ∈ (mergeInto acc sub).modules ↔ m ∈ acc.modules ∨ m ∈ sub.modules :=
  mem_foldl_addSet _ _ _

theorem mem_mergeInto_unresolved (acc sub : TraversalResult) (u : String) :
    u ∈ (mergeInto acc sub).unresolved ↔ u ∈ acc.unresolved ∨ u ∈ sub.unresolved :=
  mem_foldl_addSet _ _ _

/-! Preservation of per-record import dedup through the merge. -/

theorem mergeFilePair_preserves_nodup (acc : List (String × FileStat))
    (kv : String × FileStat)
    (hacc : ∀ kv' ∈ acc, (pathsOf kv'.2.imports).Nodup)
    (hkv : (pathsOf kv.2.imports).Nodup) :
    ∀ kv' ∈ mergeFilePair acc kv, (pathsOf kv'.2.imports).Nodup := by
  unfold mergeFilePair
  cases hl : alookup acc kv.1 with
  | none =>
    intro kv' hm
    rcases List.mem_append.mp hm with h | h
    · exact hacc _ h
    · rw [List.mem_singleton] at h
      exact h ▸ hkv
  | some prev =>
    intro kv' hm
    rcases List.mem_map.mp hm with ⟨kv0, hkv0, heq⟩
    by_cases h0 : kv0.1 = kv.1
    · rw [if_pos h0] at heq
      have hprev : (pathsOf prev.imports).Nodup := hacc _ (alookup_mem hl)
      subst heq
      exact merged_imports_nodup hprev kv.2.imports
    · rw [if_neg h0] at heq
      exact heq ▸ hacc _ hkv0

theorem foldl_mergeFilePair_preserves_nodup (es : List (String × FileStat)) :
    ∀ acc, (∀ kv ∈ acc, (pathsOf kv.2.imports).Nodup) →
      (∀ kv ∈ es, (pathsOf kv.2.imports).Nodup) →
      ∀ kv ∈ es.foldl mergeFilePair acc, (pathsOf kv.2.imports).Nodup := by
  induction es with
  | nil => intro acc hacc _; simpa using hacc
  | cons kv rest ih =>
    intro acc hacc hes
    rw [List.foldl_cons]
    exact ih _
      (mergeFilePair_preserves_nodup acc kv hacc (hes kv (List.mem_cons_self _ _)))
      (fun kv' hm => hes kv' (List.mem_cons_of_mem _ hm))

theorem mergeInto_preserves_nodup (acc sub : TraversalResult)
    (hacc : ∀ kv ∈ acc.files, (pathsOf kv.2.imports).Nodup)
    (hsub : ∀ kv ∈ sub.files, (pathsOf kv.2.imports).Nodup) :
    ∀ kv ∈ (mergeInto acc sub).files, (pathsOf kv.2.imports).Nodup := by
  have hes : ∀ kv ∈ sortFiles sub.files, (pathsOf kv.2.imports).Nodup :=
    fun kv hm => hsub kv ((sortFiles_perm sub.files).mem_iff.mp hm)
  exact foldl_mergeFilePair_preserves_nodup _ acc.files hacc hes

/-! Characterisation of the fold over all entries. -/

theorem mergeFold_modules (rs : List TraversalResult) :
    ∀ acc m, m ∈ (rs.foldl mergeInto acc).modules ↔
      m ∈ acc.modules ∨ ∃ r ∈ rs, m ∈ r.modules := by
  induction rs with
  | nil => intro acc m; simp
  | cons r rest ih =>
    intro acc m
    rw [List.foldl_cons, ih, mem_mergeInto_modules]
    constructor
    · rintro (⟨h | h⟩ | ⟨r', hr', h⟩)
      exacts [Or.inl h, Or.inr ⟨r, List.mem_cons_self _ _, h⟩,
        Or.inr ⟨r', List.mem_cons_of_mem _ hr', h⟩]
    · rintro (h | ⟨r', hr', h⟩)
      · exact Or.inl (Or.inl h)
      · rcases List.mem_cons.mp hr' with rfl | hr''
        exacts [Or.inl (Or.inr h), Or.inr ⟨r', hr'', h⟩]

theorem mergeFold_unresolved (rs : List TraversalResult) :
    ∀ acc u, u ∈ (rs.foldl mergeInto acc).unresolved ↔
      u ∈ acc.unresolved ∨ ∃ r ∈ rs, u ∈ r.unresolved := by
  induction rs with
  | nil => intro acc u; simp
  | cons r rest ih =>
    intro acc u
    rw [List.foldl_cons, ih, mem_mergeInto_unresolved]
    constructor
    · rintro (⟨h | h⟩ | ⟨r', hr', h⟩)
      exacts [Or.inl h, Or.inr ⟨r, List.mem_cons_self _ _, h⟩,
        Or.inr ⟨r', List.mem_cons_of_mem _ hr', h⟩]
    · rintro (h | ⟨r', hr', h⟩)
      · exact Or.inl (Or.inl h)
      · rcases List.mem_cons.mp hr' with rfl | hr''
        exacts [Or.inl (Or.inr h), Or.inr ⟨r', hr'', h⟩]

theorem mergeFold_files_isSome (rs : List TraversalResult) :
    ∀ acc p, (∀ r ∈ rs, (r.files.map Prod.fst).Nodup) →
      ((alookup (rs.foldl mergeInto acc).files p).isSome ↔
        (alookup acc.files p).isSome ∨ ∃ r ∈ rs, (alookup r.files p).isSome) := by
  induction rs with
  | nil => intro acc p _; simp
  | cons r rest ih =>
    intro acc p h
    rw [List.foldl_cons, ih _ _ (fun r' hm => h r' (List.mem_cons_of_mem _ hm))]
    have hmi := alookup_mergeInto_files acc r p (h r (List.mem_cons_self _ _))
    have hstep : (alookup (mergeInto acc r).files p).isSome ↔
        (alookup acc.files p).isSome ∨ (alookup r.files p).isSome := by
      rw [hmi]
      cases hr : alookup r.files p <;> cases hacc : alookup acc.files p <;> simp
    rw [hstep]
    have hcons : (∃ r' ∈ r :: rest, (alookup r'.files p).isSome) ↔
        (alookup r.files p).isSome ∨ ∃ r' ∈ rest, (alookup r'.files p).isSome := by
      constructor
      · rintro ⟨r', hr', hp'⟩
        rcases List.mem_cons.mp hr' with rfl | h'
        exacts [Or.inl hp', Or.inr ⟨r', h', hp'⟩]
      · rintro (h' | ⟨r', hr', hp'⟩)
        exacts [⟨r, List.mem_cons_self _ _, h'⟩, ⟨r', List.mem_cons_of_mem _ hr', hp'⟩]
    rw [hcons]
    tauto

theorem mergeFold_files_imports (rs : List TraversalResult) :
    ∀ acc p,
      (∀ r ∈ rs, (r.files.map Prod.fst).Nodup) →
      (∀ r ∈ rs, ∀ kv ∈ r.files, (pathsOf kv.2.imports).Nodup) →
      (∀ prev, alookup acc.files p = some prev → (pathsOf prev.imports).Nodup) →
      ∀ st, alookup (rs.foldl mergeInto acc).files p = some st →
        (match alookup acc.files p with
         | some prev => st.imports = prev.imports ++
             dedupByPath (pathsOf prev.imports) (flatImports p rs)
         | none => st.imports = dedupByPath [] (flatImports p rs)) := by
  induction rs with
  | nil =>
    intro acc p _ _ _ st hst
    simp only [List.foldl_nil] at hst
    cases hacc2 : alookup acc.files p with
    | none => rw [hacc2] at hst; cases hst
    | some prev =>
      rw [hacc2] at hst
      obtain rfl : prev = st := Option.some.inj hst
      simp [flatImports, dedupByPath]
  | cons r rest ih =>
    intro acc p h1 h2 hacc st hst
    rw [List.foldl_cons] at hst
    have h1r := h1 r (List.mem_cons_self _ _)
    have h2r := h2 r (List.mem_cons_self _ _)
    have h1' := fun r' hm => h1 r' (List.mem_cons_of_mem _ hm)
    have h2' := fun r' hm => h2 r' (List.mem_cons_of_mem _ hm)
    have hmi := alookup_mergeInto_files acc r p h1r
    cases hr : alookup r.files p with
    | none =>
      have hflat : flatImports p (r :: rest) = flatImports p rest := by
        simp [flatImports, importsAt, hr]
      have hmival : alookup (mergeInto acc r).files p = alookup acc.files p := by
        rw [hmi, hr]
      have hacc' : ∀ prev, alookup (mergeInto acc r).files p = some prev →
          (pathsOf prev.imports).Nodup := by
        intro prev hprev
        rw [hmival] at hprev
        exact hacc prev hprev
      have hrec := ih (mergeInto acc r) p h1' h2' hacc' st hst
      rw [hmival] at hrec
      cases hacc2 : alookup acc.files p with
      | none =>
        simp only [hacc2] at hrec
        simp only [hacc2, hflat]
        exact hrec
      | some prev =>
        simp only [hacc2] at hrec
        simp only [hacc2, hflat]
        exact hrec
    | some str =>
      have hstr : (pathsOf str.imports).Nodup := h2r _ (alookup_mem hr)
      have hflat : flatImports p (r :: rest) = str.imports ++ flatImports p rest := by
        simp [flatImports, importsAt, hr]
      cases hacc2 : alookup acc.files p with
      | none =>
        have hmival : alookup (mergeInto acc r).files p = some str := by
          rw [hmi, hr, hacc2]
        have hacc' : ∀ prev, alookup (mergeInto acc r).files p = some prev →
            (pathsOf prev.imports).Nodup := by
          intro prev hprev
          rw [hmival] at hprev
          exact (Option.some.inj hprev) ▸ hstr
        have hrec := ih (mergeInto acc r) p h1' h2' hacc' st hst
        simp only [hmival] at hrec
        simp only [hacc2, hflat]
        rw [dedupByPath_append]
        rw [dedupByPath_eq_self str.imports [] hstr (by simp)]
        rw [List.append_nil]
        exact hrec
      | some prev =>
        have hprev : (pathsOf prev.imports).Nodup := hacc prev hacc2
        have hmival : alookup (mergeInto acc r).files p =
            some { prev with
              imports := pushNew prev.imports (pathsOf prev.imports) str.imports } := by
          rw [hmi, hr, hacc2]
        have hacc' : ∀ prev', alookup (mergeInto acc r).files p = some prev' →
            (pathsOf prev'.imports).Nodup := by
          intro prev' hprev'
          rw [hmival] at hprev'
          obtain rfl := Option.some.inj hprev'
          exact merged_imports_nodup hprev str.imports
        have hrec := ih (mergeInto acc r) p h1' h2' hacc' st hst
        simp only [hmival] at hrec
        simp only [pushNew_eq] at hrec
        simp only [hacc2, hflat]
        rw [hrec, dedupByPath_append, ← List.append_assoc]
        congr 1
        refine dedupByPath_congr (fun x => ?_) (flatImports p rest)
        rw [pathsOf_append]
        simp only [List.mem_append]
        tauto

/-! Cache coherence: the warm cache left by a run serves exactly what a
fresh parse would produce. -/

theorem getSpecifiers_fst_of_coherent {parse : String → List String}
    {fpfn : String → Nat} {fs : List (String × String)} {cache : CacheMap}
    (hc : Coherent parse fpfn fs cache) (p : String) :
    (getSpecifiers parse fpfn fs cache p).1 = pureSpecs parse fs p := by
  unfold getSpecifiers pureSpecs
  cases hcnt : contentOf fs p with
  | none => rfl
  | some c =>
    cases hl : cacheLookup fpfn fs cache p with
    | none => rfl
    | some payload =>
      unfold cacheLookup at hl
      cases he : alookup cache p with
      | none => simp [he, hcnt] at hl
      | some e =>
        simp only [he, hcnt] at hl
        split at hl
        · next hfp =>
          obtain rfl : e.payload = payload := Option.some.inj hl
          exact hc (p, e) (alookup_mem he) c hcnt hfp
        · cases hl

theorem getSpecifiers_snd_coherent {parse : String → List String}
    {fpfn : String → Nat} {fs : List (String × String)} {cache : CacheMap}
    (hc : Coherent parse fpfn fs cache) (p : String) :
    Coherent parse fpfn fs (getSpecifiers parse fpfn fs cache p).2 := by
  unfold getSpecifiers
  cases hcnt : contentOf fs p with
  | none => exact hc
  | some c =>
    cases hl : cacheLookup fpfn fs cache p with
    | some payload => exact hc
    | none =>
      intro kv hm c' hcnt' hfp
      unfold cacheStore at hm
      cases he : alookup cache p with
      | some e0 =>
        rw [he] at hm
        rcases List.mem_map.mp hm with ⟨kv0, hkv0, heq⟩
        by_cases hk : kv0.1 = p
        · rw [if_pos hk] at heq
          subst heq
          obtain rfl : c = c' := by
            rw [hcnt] at hcnt'
            exact Option.some.inj hcnt'
          rfl
        · rw [if_neg hk] at heq
          subst heq
          exact hc kv0 hkv0 c' hcnt' hfp
      | none =>
        rw [he] at hm
        rcases List.mem_append.mp hm with h | h
        · exact hc kv h c' hcnt' hfp
        · rw [List.mem_singleton] at h
          subst h
          obtain rfl : c = c' := by
            rw [hcnt] at hcnt'
            exact Option.some.inj hcnt'
          rfl

theorem traverseGo_snd_coherent (parse : String → List String)
    (fpfn : String → Nat) (resolveFn : String → String → ResolutionResult)
    (fs : List (String × String)) :
    ∀ fuel wl visited acc cache, Coherent parse fpfn fs cache →
      Coherent parse fpfn fs
        (traverseGo parse fpfn resolveFn fs fuel wl visited acc cache).2 := by
  intro fuel
  induction fuel with
  | zero => intro wl visited acc cache hc; exact hc
  | succ n ih =>
    intro wl visited acc cache hc
    cases wl with
    | nil => exact hc
    | cons p rest =>
      by_cases hv : p ∈ visited
      · simp only [traverseGo, if_pos hv]
        exact ih rest visited acc cache hc
      · simp only [traverseGo, if_neg hv]
        exact ih _ _ _ _ (getSpecifiers_snd_coherent hc p)

theorem traverseGo_fst_congr (parse : String → List String)
    (fpfn : String → Nat) (resolveFn : String → String → ResolutionResult)
    (fs : List (String × String)) :
    ∀ fuel wl visited acc c1 c2,
      Coherent parse fpfn fs c1 → Coherent parse fpfn fs c2 →
      (traverseGo parse fpfn resolveFn fs fuel wl visited acc c1).1 =
      (traverseGo parse fpfn resolveFn fs fuel wl visited acc c2).1 := by
  intro fuel
  induction fuel with
  | zero => intros; rfl
  | succ n ih =>
    intro wl visited acc c1 c2 h1 h2
    cases wl with
    | nil => rfl
    | cons p rest =>
      by_cases hv : p ∈ visited
      · simp only [traverseGo, if_pos hv]
        exact ih rest visited acc c1 c2 h1 h2
      · simp only [traverseGo, if_neg hv]
        rw [getSpecifiers_fst_of_coherent h1 p, getSpecifiers_fst_of_coherent h2 p]
        exact ih _ _ _ _ _ (getSpecifiers_snd_coherent h1 p)
          (getSpecifiers_snd_coherent h2 p)

theorem coherent_nil (parse : String → List String) (fpfn : String → Nat)
    (fs : List (String × String)) : Coherent parse fpfn fs [] := by
  intro kv hm
  simp at hm

/-! Nodup helpers for the whole-run fold. -/

theorem mergeFold_modules_nodup (rs : List TraversalResult) :
    ∀ acc : TraversalResult, acc.modules.Nodup →
      (rs.foldl mergeInto acc).modules.Nodup := by
  induction rs with
  | nil => intro acc h; simpa using h
  | cons r rest ih =>
    intro acc h
    rw [List.foldl_cons]
    exact ih _ (nodup_foldl_addSet _ _ h)

theorem mergeFold_unresolved_nodup (rs : List TraversalResult) :
    ∀ acc : TraversalResult, acc.unresolved.Nodup →
      (rs.foldl mergeInto acc).unresolved.Nodup := by
  induction rs with
  | nil => intro acc h; simpa using h
  | cons r rest ih =>
    intro acc h
    rw [List.foldl_cons]
    exact ih _ (nodup_foldl_addSet _ _ h)

theorem mergeFold_files_nodup (rs : List TraversalResult) :
    ∀ acc : TraversalResult, (∀ kv ∈ acc.files, (pathsOf kv.2.imports).Nodup) →
      (∀ r ∈ rs, ∀ kv ∈ r.files, (pathsOf kv.2.imports).Nodup) →
      ∀ kv ∈ (rs.foldl mergeInto acc).files, (pathsOf kv.2.imports).Nodup := by
  induction rs with
  | nil => intro acc hacc _; simpa using hacc
  | cons r rest ih =>
    intro acc hacc h
    rw [List.foldl_cons]
    exact ih _
      (mergeInto_preserves_nodup acc r hacc (h r (List.mem_cons_self _ _)))
      (fun r' hm => h r' (List.mem_cons_of_mem _ hm))

/-! The claim theorems. -/

/-- C1: for every entry the orchestrator runs traverse (at least one
invocation); a first invocation rejected with InvalidCacheError purges the
cache and retries the same traversal exactly once (two invocations in
total, purge performed, outcome that of the retry); a failure of the retry
becomes the chain outcome, and any chain error propagates out of the entry
loop to the caller; an error other than InvalidCacheError is rethrown
without a retry (one invocation, no purge). -/
theorem entry_chain_retry_protocol :
    (∀ tr : Nat → Except TraverseError TraversalResult,
      1 ≤ (runEntryChain tr).calls) ∧
    (∀ tr : Nat → Except TraverseError TraversalResult, ∀ p,
      tr 0 = .error (.invalidCacheError p) →
      runEntryChain tr = { outcome := tr 1, calls := 2, purged := true }) ∧
    (∀ tr : Nat → Except TraverseError TraversalResult, ∀ p e2,
      tr 0 = .error (.invalidCacheError p) → tr 1 = .error e2 →
      (runEntryChain tr).outcome = .error e2) ∧
    (∀ tr : Nat → Except TraverseError TraversalResult, ∀ p,
      tr 0 = .error (.parseError p) →
      runEntryChain tr =
        { outcome := .error (.parseError p), calls := 1, purged := false }) ∧
    (∀ env : Env, ∀ i rest acc calls purges e,
      (runEntryChain (env.traverseOutcome i)).outcome = .error e →
      (entryLoopGo env (i :: rest) acc calls purges).outcome = .error e) := by
  refine ⟨?_, ?_, ?_, ?_, ?_⟩
  · intro tr
    cases h : tr 0 with
    | ok v => simp [runEntryChain, h]
    | error e => cases e <;> simp [runEntryChain, h]
  · intro tr p h
    simp [runEntryChain, h]
  · intro tr p e2 h h1
    simp [runEntryChain, h, h1]
  · intro tr p h
    simp [runEntryChain, h]
  · intro env i rest acc calls purges e h
    simp only [entryLoopGo]
    rw [h]

/-- Witness for C1: a concrete oracle failing once with InvalidCacheError is
retried (two calls, purge, retry outcome kept); a concrete oracle failing
with a ParseError is not retried. -/
theorem entry_chain_retry_protocol_witness :
    runEntryChain oracleRetry =
      { outcome := .ok getResultObject, calls := 2, purged := true } ∧
    runEntryChain oracleParse =
      { outcome := .error (.parseError "/p/index.js"), calls := 1, purged := false } := by
  have h1 := entry_chain_retry_protocol.2.1 oracleRetry "/p/a.js" rfl
  have h2 := entry_chain_retry_protocol.2.2.2.1 oracleParse "/p/index.js" rfl
  exact ⟨h1, h2⟩

/-- C2: after all entry traversals complete, the merged modules set is the
union of the per-entry modules sets and the merged unresolved set the union
of the per-entry unresolved sets (as sets); the files maps are merged by
path: a path is present in the merge exactly when some entry recorded it,
and its single record's imports list is the union, deduplicated by resolved
path in first-seen order, of all entries' import lists for that path.
Hypotheses: each per-entry files map has unique keys (a JS Map) and each
per-entry record's imports are deduplicated by resolved path (the traverser
invariant of spec section 3). -/
theorem merge_union_spec (rs : List TraversalResult)
    (h1 : ∀ r ∈ rs, (r.files.map Prod.fst).Nodup)
    (h2 : ∀ r ∈ rs, ∀ kv ∈ r.files, (pathsOf kv.2.imports).Nodup) :
    (∀ m, m ∈ (mergeAll rs).modules ↔ ∃ r ∈ rs, m ∈ r.modules) ∧
    (∀ u, u ∈ (mergeAll rs).unresolved ↔ ∃ r ∈ rs, u ∈ r.unresolved) ∧
    (∀ p, (alookup (mergeAll rs).files p).isSome ↔
      ∃ r ∈ rs, (alookup r.files p).isSome) ∧
    (∀ p st, alookup (mergeAll rs).files p = some st →
      st.imports = dedupByPath [] (flatImports p rs)) := by
  unfold mergeAll
  refine ⟨?_, ?_, ?_, ?_⟩
  · intro m
    rw [mergeFold_modules]
    simp [getResultObject]
  · intro u
    rw [mergeFold_unresolved]
    simp [getResultObject]
  · intro p
    rw [mergeFold_files_isSome rs getResultObject p h1]
    simp [getResultObject, alookup]
  · intro p st hst
    have h := mergeFold_files_imports rs getResultObject p h1 h2
      (fun prev hprev => by simp [getResultObject, alookup] at hprev) st hst
    simpa [getResultObject, alookup] using h

/-- Witness for C2: merging the two sample entry results unions the sets and
dedups the shared path's imports in first-seen order. -/
theorem merge_union_spec_witness :
    "lodash" ∈ (mergeAll [wtr1, wtr2]).modules ∧
    "./y" ∈ (mergeAll [wtr1, wtr2]).unresolved ∧
    (alookup (mergeAll [wtr1, wtr2]).files "/p/a.js").isSome ∧
    wstat.imports = dedupByPath [] (flatImports "/p/a.js" [wtr1, wtr2]) := by
  have h := merge_union_spec [wtr1, wtr2] (by decide) (by decide)
  refine ⟨?_, ?_, ?_, ?_⟩
  · exact (h.1 "lodash").mpr ⟨wtr2, by decide, by decide⟩
  · exact (h.2.1 "./y").mpr ⟨wtr2, by decide, by decide⟩
  · exact (h.2.2.1 "/p/a.js").mpr ⟨wtr1, by decide, by decide⟩
  · exact h.2.2.2 "/p/a.js" wstat (by decide)

/-- C3: each entry is resolved against its own ResolutionConfig, the global
config with that entry's override fields replacing the same-named global
fields; a specifier matching an alias prefix that two entries' configs map
to different existing targets resolves to the two different absolute paths
under the two configs, so the per-entry traversals disagree on it and only
the later merge step combines their results. -/
theorem entry_scoped_alias_override (g : ResolutionConfig) (o1 o2 : EntryOverride)
    (fsx : List String) (P t1 t2 S rest : String)
    (h1 : o1.aliases = some [(P, [t1])]) (h2 : o2.aliases = some [(P, [t2])])
    (hm : matchAlias S P = some rest)
    (he1 : (t1 ++ rest) ∈ fsx) (he2 : (t2 ++ rest) ∈ fsx)
    (hne : t1 ++ rest ≠ t2 ++ rest) :
    resolveAliased fsx (mergeEntryConfig g o1) S = some (t1 ++ rest) ∧
    resolveAliased fsx (mergeEntryConfig g o2) S = some (t2 ++ rest) ∧
    resolveAliased fsx (mergeEntryConfig g o1) S ≠
      resolveAliased fsx (mergeEntryConfig g o2) S := by
  have e1 : resolveAliased fsx (mergeEntryConfig g o1) S = some (t1 ++ rest) := by
    simp [resolveAliased, mergeEntryConfig, h1, List.findSome?, hm, resolveFile, he1]
  have e2 : resolveAliased fsx (mergeEntryConfig g o2) S = some (t2 ++ rest) := by
    simp [resolveAliased, mergeEntryConfig, h2, List.findSome?, hm, resolveFile, he2]
  refine ⟨e1, e2, ?_⟩
  rw [e1, e2]
  exact fun h => hne (Option.some.inj h)

/-- Witness for C3: the client and server overrides of the create-api alias
resolve the same specifier to the two different files. -/
theorem entry_scoped_alias_override_witness :
    resolveAliased wfsx (mergeEntryConfig wglobal wo1) "create-api" =
      some ("src/api/create-api-client.js" ++ "") ∧
    resolveAliased wfsx (mergeEntryConfig wglobal wo2) "create-api" =
      some ("src/api/create-api-server.js" ++ "") ∧
    resolveAliased wfsx (mergeEntryConfig wglobal wo1) "create-api" ≠
      resolveAliased wfsx (mergeEntryConfig wglobal wo2) "create-api" := by
  exact entry_scoped_alias_override wglobal wo1 wo2 wfsx "create-api"
    "src/api/create-api-client.js" "src/api/create-api-server.js" "create-api" ""
    rfl rfl (by decide) (by decide) (by decide) (by decide)

/-- C4: running the modelled traversal twice over an unchanged filesystem,
the second time with the cache warmed by the first run, yields a
TraversalResult identical to the cold-cache run; the parser, fingerprint
function and resolver are arbitrary, and both runs use the same fuel. -/
theorem traverse_warm_cache_idempotent (parse : String → List String)
    (fpfn : String → Nat) (resolveFn : String → String → ResolutionResult)
    (fs : List (String × String)) (entry : String) (fuel : Nat) :
    (traverse parse fpfn resolveFn fs entry fuel
        (traverse parse fpfn resolveFn fs entry fuel []).2).1 =
    (traverse parse fpfn resolveFn fs entry fuel []).1 := by
  have hcold : Coherent parse fpfn fs [] := coherent_nil parse fpfn fs
  have hwarm : Coherent parse fpfn fs
      (traverse parse fpfn resolveFn fs entry fuel []).2 :=
    traverseGo_snd_coherent parse fpfn resolveFn fs fuel [entry] [] getResultObject [] hcold
  exact traverseGo_fst_congr parse fpfn resolveFn fs fuel [entry] [] getResultObject
    _ _ hwarm hcold

/-- C5: a ParseError of the first or of the second traverse invocation, and
a second consecutive InvalidCacheError, become the chain outcome; and any
error escaping the entry loop makes main print the distinct
"Failed parsing <path>" message on stderr, skip the normal findings report,
and exit with code 1. -/
theorem fatal_errors_reported :
    (∀ tr : Nat → Except TraverseError TraversalResult, ∀ p,
      tr 0 = .error (.parseError p) →
      (runEntryChain tr).outcome = .error (.parseError p)) ∧
    (∀ tr : Nat → Except TraverseError TraversalResult, ∀ r1 p,
      tr 0 = .ok r1 → tr 1 = .error (.parseError p) →
      (runEntryChain tr).outcome = .error (.parseError p)) ∧
    (∀ tr : Nat → Except TraverseError TraversalResult, ∀ p q,
      tr 0 = .error (.invalidCacheError p) → tr 1 = .error (.invalidCacheError q) →
      (runEntryChain tr).outcome = .error (.invalidCacheError q)) ∧
    (∀ env args e, pkgGuardFails env = false → args.clearCache = false →
      args.init = false → (entryLoop env).outcome = .error e →
      failedParsingMsg e ∈ (mainModel env args).stderr ∧
      (mainModel env args).exitCode = some 1 ∧
      (mainModel env args).printedResults = false) := by
  refine ⟨?_, ?_, ?_, ?_⟩
  · intro tr p h
    simp [runEntryChain, h]
  · intro tr r1 p h h1
    simp [runEntryChain, h, h1]
  · intro tr p q h h1
    simp [runEntryChain, h, h1]
  · intro env args e hg hclear hinit hloop
    simp [mainModel, hg, hclear, hinit, hloop]

/-- Witness for C5: the environment whose single entry always fails to parse
makes main report the path on stderr and exit 1 without printing results. -/
theorem fatal_errors_reported_witness :
    failedParsingMsg (.parseError "/p/index.js") ∈ (mainModel envParse argsScan).stderr ∧
    (mainModel envParse argsScan).exitCode = some 1 ∧
    (mainModel envParse argsScan).printedResults = false :=
  fatal_errors_reported.2.2.2 envParse argsScan (.parseError "/p/index.js")
    rfl rfl rfl rfl

/-- C6: every record of the merged files map carries an imports list in
which each resolved path occurs at most once, provided each per-entry
record satisfies the same invariant (spec section 3). -/
theorem merged_imports_dedup_invariant (rs : List TraversalResult)
    (h : ∀ r ∈ rs, ∀ kv ∈ r.files, (pathsOf kv.2.imports).Nodup) :
    ∀ kv ∈ (mergeAll rs).files, (pathsOf kv.2.imports).Nodup := by
  unfold mergeAll
  exact mergeFold_files_nodup rs getResultObject (by simp [getResultObject]) h

/-- Witness for C6: the merged record of the shared sample path has no
duplicate resolved path. -/
theorem merged_imports_dedup_invariant_witness :
    (pathsOf wstat.imports).Nodup :=
  merged_imports_dedup_invariant [wtr1, wtr2] (by decide) ("/p/a.js", wstat) (by decide)

/-- C7: the merged result of any list of per-entry results has no duplicate
package name in modules and no duplicate specifier in unresolved, however
many entries mention the same package or fail on the same specifier. -/
theorem merged_sets_nodup (rs : List TraversalResult) :
    (mergeAll rs).modules.Nodup ∧ (mergeAll rs).unresolved.Nodup :=
  ⟨mergeFold_modules_nodup rs getResultObject (by simp [getResultObject]),
   mergeFold_unresolved_nodup rs getResultObject (by simp [getResultObject])⟩

/-- C8: when the first traverse invocation for an entry succeeds, the chain
still invokes traverse a second time with the same entry and config (two
invocations, no purge) and keeps the second invocation's outcome, the first
result being discarded; the value merged into the accumulator by the entry
loop is the second invocation's result. -/
theorem second_traversal_result_kept :
    (∀ tr : Nat → Except TraverseError TraversalResult, ∀ r1,
      tr 0 = .ok r1 →
      runEntryChain tr = { outcome := tr 1, calls := 2, purged := false }) ∧
    (∀ env : Env, ∀ i rest acc calls purges r1 r2,
      env.traverseOutcome i 0 = .ok r1 → env.traverseOutcome i 1 = .ok r2 →
      entryLoopGo env (i :: rest) acc calls purges =
        entryLoopGo env rest (mergeInto acc r2) (calls + 2) purges) := by
  constructor
  · intro tr r1 h
    simp [runEntryChain, h]
  · intro env i rest acc calls purges r1 r2 h0 h1
    have hchain : runEntryChain (env.traverseOutcome i) =
        { outcome := .ok r2, calls := 2, purged := false } := by
      simp [runEntryChain, h0, h1]
    simp [entryLoopGo, hchain]

/-- Witness for C8: with both sample invocations succeeding, the chain keeps
the second result and the loop merges it. -/
theorem second_traversal_result_kept_witness :
    runEntryChain oracleTwoOk = { outcome := .ok wtr2, calls := 2, purged := false } ∧
    entryLoopGo envOk [0] getResultObject 0 0 =
      entryLoopGo envOk [] (mergeInto getResultObject wtr2) (0 + 2) 0 := by
  constructor
  · exact second_traversal_result_kept.1 oracleTwoOk wtr1 rfl
  · exact second_traversal_result_kept.2 envOk 0 [] getResultObject 0 0 wtr1 wtr2 rfl rfl

/-- C9: with the update flag set and the traversals and processing
successful, main updates the allow-lists and exits 0 without printing the
normal results report, whatever the scan found (Env.resultClean is
unconstrained). -/
theorem update_flag_exits_zero (env : Env) (args : CliArguments)
    (tr : TraversalResult) (hg : pkgGuardFails env = false)
    (hclear : args.clearCache = false) (hinit : args.init = false)
    (hupd : args.update = true) (hok : (entryLoop env).outcome = .ok tr) :
    (mainModel env args).updatedAllowLists = true ∧
    (mainModel env args).exitCode = some 0 ∧
    (mainModel env args).printedResults = false := by
  simp [mainModel, hg, hclear, hinit, hupd, hok]

/-- Witness for C9: the sample environment has a dirty scan result, yet main
with the update flag exits 0 and prints no report. -/
theorem update_flag_exits_zero_witness :
    (mainModel envOk argsUpdate).updatedAllowLists = true ∧
    (mainModel envOk argsUpdate).exitCode = some 0 ∧
    (mainModel envOk argsUpdate).printedResults = false :=
  update_flag_exits_zero envOk argsUpdate (mergeInto getResultObject wtr2)
    rfl rfl rfl rfl rfl

/-- C10: when no project package.json is found, or the one found is
unimported's own, main prints the could-not-resolve message to stderr and
exits 1 without invoking traverse. -/
theorem missing_package_json_aborts :
    (∀ env args, env.projectPkgPath = none →
      (mainModel env args).exitCode = some 1 ∧
      (mainModel env args).stderr = [couldNotResolveMsg] ∧
      (mainModel env args).traverseCalls = 0) ∧
    (∀ env args p, env.projectPkgPath = some p → env.unimportedPkgPath = some p →
      (mainModel env args).exitCode = some 1 ∧
      (mainModel env args).stderr = [couldNotResolveMsg] ∧
      (mainModel env args).traverseCalls = 0) := by
  constructor
  · intro env args h
    have hg : pkgGuardFails env = true := by
      unfold pkgGuardFails
      rw [h]
    simp [mainModel, hg]
  · intro env args p h1 h2
    have hg : pkgGuardFails env = true := by
      unfold pkgGuardFails
      rw [h1, h2]
      simp
    simp [mainModel, hg]

/-- Witness for C10: the environment without a project package.json aborts
with the message, exit code 1 and zero traverse invocations. -/
theorem missing_package_json_aborts_witness :
    (mainModel envNoPkg argsScan).exitCode = some 1 ∧
    (mainModel envNoPkg argsScan).stderr = [couldNotResolveMsg] ∧
    (mainModel envNoPkg argsScan).traverseCalls = 0 :=
  missing_package_json_aborts.1 envNoPkg argsScan rfl
